import Mathlib

/-!
Verification of the `orderedmap` Go package (src/orderedmap.go).

The Go implementation couples a built-in map `mapper : map[string]*list.Element`
with a doubly linked list `lister : *list.List` whose elements carry an
`ElemVal{Key, Value}` payload.  We embed the heap of list nodes as an arena of
nodes addressed by stable natural-number identifiers (a `*list.Element` pointer
becomes a `Nat` id): `lister` is the sequence of `(id, payload)` pairs in list
order, and `mapper` is an association list from key to node id, standing for
the Go map.  `nextId` supplies fresh ids for `PushBack`, mirroring allocation.
Machine `int` never overflows here (lengths only), so `Nat` is used directly.
-/

/-- `ElemVal` encapsulates the key-value pair stored in the `Value` field of a
list element (src/orderedmap.go lines 52-55).  `interface{}` values become a
type parameter `V`. -/
structure ElemVal (V : Type) where
  key : String
  value : V
  deriving Repr, DecidableEq

/-- The state of an `OrderedMap` (src/orderedmap.go lines 37-40): the Go map
`mapper` as an association list key to node id, the linked list `lister` as
the ordered sequence of `(node id, payload)` pairs, plus the id supply for
newly allocated list elements. -/
structure OrderedMap (V : Type) where
  mapper : List (String × Nat)
  lister : List (Nat × ElemVal V)
  nextId : Nat
  deriving Repr

/-- `New` returns an instance of ordered map (src/orderedmap.go lines 43-48). -/
def OrderedMap.New (V : Type) : OrderedMap V :=
  { mapper := [], lister := [], nextId := 0 }

/-- Lookup `m.mapper[key]` of the Go built-in map: the id associated to `key`,
or `none` when `exist` is false. -/
def lookupKey : List (String × Nat) → String → Option Nat
  | [], _ => none
  | p :: rest, k => if p.1 = k then some p.2 else lookupKey rest k

/-- `delete(m.mapper, key)` of the Go built-in map: remove the binding of
`key` (a Go map holds at most one binding per key). -/
def removeKey : List (String × Nat) → String → List (String × Nat)
  | [], _ => []
  | p :: rest, k => if p.1 = k then rest else p :: removeKey rest k

/-- Dereference a node pointer: the payload of the node with identifier `id`
(node ids are unique in a well-formed map). -/
def findNode {V : Type} : List (Nat × ElemVal V) → Nat → Option (ElemVal V)
  | [], _ => none
  | p :: rest, id => if p.1 = id then some p.2 else findNode rest id

/-- `elem.Value.(*ElemVal).Value = value` (src/orderedmap.go line 64): mutate,
in place, the `Value` field of the node with identifier `id`. -/
def updateNode {V : Type} : List (Nat × ElemVal V) → Nat → V → List (Nat × ElemVal V)
  | [], _, _ => []
  | p :: rest, id, v => if p.1 = id then (p.1, ⟨p.2.key, v⟩) :: rest else p :: updateNode rest id v

/-- `m.lister.Remove(elem)` (src/orderedmap.go line 85): unlink the node with
identifier `id` from the list. -/
def removeNode {V : Type} : List (Nat × ElemVal V) → Nat → List (Nat × ElemVal V)
  | [], _ => []
  | p :: rest, id => if p.1 = id then rest else p :: removeNode rest id

/-- `e.Next()` of `container/list`: the successor of the node with identifier
`id` in the current list, `nil` if `id` is the last node or is no longer in the
list (Go's `List.Remove` nils out the removed element's links, so `Next` on a
removed element also yields `nil`). -/
def listNext {V : Type} : List (Nat × ElemVal V) → Nat → Option (Nat × ElemVal V)
  | [], _ => none
  | a :: rest, id => if a.1 = id then rest.head? else listNext rest id

/-- `Set` sets the given value under the specified key
(src/orderedmap.go lines 58-66).  Absent key: `PushBack` a fresh node and
register it in the map; present key: mutate the stored value in place. -/
def OrderedMap.Set {V : Type} (m : OrderedMap V) (key : String) (value : V) : OrderedMap V :=
  match lookupKey m.mapper key with
  | none =>
      { mapper := m.mapper ++ [(key, m.nextId)]
        lister := m.lister ++ [(m.nextId, ⟨key, value⟩)]
        nextId := m.nextId + 1 }
  | some id =>
      { m with lister := updateNode m.lister id value }

/-- `Get` retrieves a value from the ordered map under the given key
(src/orderedmap.go lines 70-76).  The Go result `(nil, false)` is rendered
`none`, and `(v, true)` is rendered `some v`. -/
def OrderedMap.Get {V : Type} (m : OrderedMap V) (key : String) : Option V :=
  match lookupKey m.mapper key with
  | none => none
  | some id => (findNode m.lister id).map (fun ev => ev.value)

/-- `Delete` deletes an item from the ordered map
(src/orderedmap.go lines 79-87): no-op when the key is absent, otherwise
remove the node from the list and the binding from the map. -/
def OrderedMap.Delete {V : Type} (m : OrderedMap V) (key : String) : OrderedMap V :=
  match lookupKey m.mapper key with
  | none => m
  | some id =>
      { m with lister := removeNode m.lister id
               mapper := removeKey m.mapper key }

/-- `Len` returns the number of elements of ordered map `m`
(src/orderedmap.go line 91): the length of the underlying list. -/
def OrderedMap.Len {V : Type} (m : OrderedMap V) : Nat := m.lister.length

/-- `Element` encapsulates the underlying list element (the node handle
`elem`) and a copy of the key-value pair (src/orderedmap.go lines 114-117). -/
structure Element (V : Type) where
  elem : Nat
  key : String
  value : V
  deriving Repr, DecidableEq

/-- Build the `Element` yielded for a node: the handle plus a fresh copy of
the node's `ElemVal` (src/orderedmap.go lines 127-133 and 144-150). -/
def stepElem {V : Type} (p : Nat × ElemVal V) : Element V :=
  { elem := p.1, key := p.2.key, value := p.2.value }

/-- `First` returns the first element of the ordered map, or `none` if the
ordered map is empty (src/orderedmap.go lines 120-134). -/
def OrderedMap.First {V : Type} (m : OrderedMap V) : Option (Element V) :=
  (m.lister.head?).map stepElem

/-- `Element.Next` returns the next ordered map element or `none`
(src/orderedmap.go lines 137-151).  The Go method dereferences the node
pointer `e.elem` against the live list, so the embedding takes the current
map as the heap through which the pointer is followed. -/
def Element.Next {V : Type} (e : Element V) (m : OrderedMap V) : Option (Element V) :=
  (listNext m.lister e.elem).map stepElem

/-- Assignment to the public `Value` field of an `Element`: a Go caller may
write `e.Value = v`; this touches only the copied payload, never the map. -/
def Element.setValue {V : Type} (e : Element V) (v : V) : Element V :=
  { e with value := v }

/-- The keys of the sequence, in list order. -/
def OrderedMap.listKeys {V : Type} (m : OrderedMap V) : List String :=
  m.lister.map (fun p => p.2.key)

/-- The node identifiers of the sequence, in list order. -/
def OrderedMap.listIds {V : Type} (m : OrderedMap V) : List Nat :=
  m.lister.map Prod.fst

/-- Fuel-bounded forward traversal: repeatedly take the key-value pair of the
current element and follow `Element.Next`, as in the documented iteration
pattern `for e := m.First(); e != nil; e = e.Next()` (src/orderedmap.go
lines 7-12). -/
def traverseAux {V : Type} (m : OrderedMap V) : Nat → Option (Element V) → List (String × V)
  | _, none => []
  | 0, some _ => []
  | fuel + 1, some e => (e.key, e.value) :: traverseAux m fuel (e.Next m)

/-- Forward traversal starting from an arbitrary cursor position; `m.Len`
steps of fuel always suffice since each step moves strictly down the list. -/
def traverseFrom {V : Type} (m : OrderedMap V) (oe : Option (Element V)) : List (String × V) :=
  traverseAux m m.Len oe

/-- A full forward iteration `for e := m.First(); e != nil; e = e.Next()`. -/
def OrderedMap.iterate {V : Type} (m : OrderedMap V) : List (String × V) :=
  traverseFrom m m.First

/-- `Set` over a whole list of key-value pairs, left to right. -/
def setAll {V : Type} (m : OrderedMap V) (kvs : List (String × V)) : OrderedMap V :=
  kvs.foldl (fun acc kv => acc.Set kv.1 kv.2) m

/-- One client operation on the map, for stating invariants over arbitrary
operation sequences. -/
inductive Op (V : Type) where
  | set (k : String) (v : V)
  | del (k : String)

/-- Apply one operation. -/
def applyOp {V : Type} (m : OrderedMap V) : Op V → OrderedMap V
  | .set k v => m.Set k v
  | .del k => m.Delete k

/-- Apply a sequence of operations, left to right. -/
def applyOps {V : Type} (m : OrderedMap V) (ops : List (Op V)) : OrderedMap V :=
  ops.foldl applyOp m

/-- Well-formedness of an `OrderedMap` state: the Go map and the linked list
are two views of the same set of entries.  `sync` says the association list
`mapper` holds exactly the `(key, id)` pairs of the sequence in sequence
order; node ids and keys are free of duplicates, and every allocated id is
below the allocation counter. -/
def OrderedMap.WF {V : Type} (m : OrderedMap V) : Prop :=
  m.mapper = m.lister.map (fun p => (p.2.key, p.1))
    ∧ (m.lister.map Prod.fst).Nodup
    ∧ (m.lister.map (fun p => p.2.key)).Nodup
    ∧ ∀ p ∈ m.lister, p.1 < m.nextId

instance {V : Type} (m : OrderedMap V) : Decidable m.WF := by
  unfold OrderedMap.WF; infer_instance

/-! ### Lemmas about the low-level list operations -/

theorem lookupKey_proj_none_iff {V : Type} (l : List (Nat × ElemVal V)) (k : String) :
    lookupKey (l.map (fun p => (p.2.key, p.1))) k = none ↔ k ∉ l.map (fun p => p.2.key) := by
  induction l with
  | nil => simp [lookupKey]
  | cons p rest ih =>
    simp only [List.map_cons, lookupKey, List.mem_cons]
    by_cases h : p.2.key = k
    · simp [h]
    · rw [if_neg h, ih, not_or]
      exact ⟨fun hn => ⟨fun he => h he.symm, hn⟩, fun hc => hc.2⟩

theorem lookupKey_proj_some {V : Type} {l : List (Nat × ElemVal V)} {k : String} {id : Nat}
    (h : lookupKey (l.map (fun p => (p.2.key, p.1))) k = some id) :
    ∃ l1 ev l2, l = l1 ++ (id, ev) :: l2 ∧ ev.key = k ∧ ∀ q ∈ l1, q.2.key ≠ k := by
  induction l with
  | nil => simp [lookupKey] at h
  | cons p rest ih =>
    simp only [List.map_cons, lookupKey] at h
    by_cases hk : p.2.key = k
    · rw [if_pos hk] at h
      obtain rfl : p.1 = id := Option.some.inj h
      exact ⟨[], p.2, rest, by simp, hk, by simp⟩
    · rw [if_neg hk] at h
      obtain ⟨l1, ev, l2, hl, hkey, hfirst⟩ := ih h
      refine ⟨p :: l1, ev, l2, by rw [hl, List.cons_append], hkey, ?_⟩
      intro q hq
      rcases List.mem_cons.mp hq with rfl | hq
      · exact hk
      · exact hfirst q hq

theorem findNode_append_first {V : Type} {l1 : List (Nat × ElemVal V)} {id : Nat}
    (ev : ElemVal V) (l2 : List (Nat × ElemVal V)) (h : ∀ q ∈ l1, q.1 ≠ id) :
    findNode (l1 ++ (id, ev) :: l2) id = some ev := by
  induction l1 with
  | nil => simp [findNode]
  | cons q rest ih =>
    simp only [List.cons_append, findNode]
    rw [if_neg (h q (by simp))]
    exact ih (fun r hr => h r (List.mem_cons_of_mem _ hr))

theorem updateNode_map_fst {V : Type} (l : List (Nat × ElemVal V)) (id : Nat) (v : V) :
    (updateNode l id v).map Prod.fst = l.map Prod.fst := by
  induction l with
  | nil => simp [updateNode]
  | cons p rest ih =>
    simp only [updateNode]
    split
    · simp
    · simp [ih]

theorem updateNode_map_key {V : Type} (l : List (Nat × ElemVal V)) (id : Nat) (v : V) :
    (updateNode l id v).map (fun p => p.2.key) = l.map (fun p => p.2.key) := by
  induction l with
  | nil => simp [updateNode]
  | cons p rest ih =>
    simp only [updateNode]
    split
    · simp
    · simp [ih]

theorem updateNode_map_proj {V : Type} (l : List (Nat × ElemVal V)) (id : Nat) (v : V) :
    (updateNode l id v).map (fun p => (p.2.key, p.1)) = l.map (fun p => (p.2.key, p.1)) := by
  induction l with
  | nil => simp [updateNode]
  | cons p rest ih =>
    simp only [updateNode]
    split
    · simp
    · simp [ih]

theorem updateNode_length {V : Type} (l : List (Nat × ElemVal V)) (id : Nat) (v : V) :
    (updateNode l id v).length = l.length := by
  induction l with
  | nil => simp [updateNode]
  | cons p rest ih =>
    simp only [updateNode]
    split
    · simp
    · simp [ih]

theorem updateNode_append_first {V : Type} {l1 : List (Nat × ElemVal V)} {id : Nat}
    (ev : ElemVal V) (l2 : List (Nat × ElemVal V)) (v : V) (h : ∀ q ∈ l1, q.1 ≠ id) :
    updateNode (l1 ++ (id, ev) :: l2) id v = l1 ++ (id, ⟨ev.key, v⟩) :: l2 := by
  induction l1 with
  | nil => simp [updateNode]
  | cons q rest ih =>
    simp only [List.cons_append, updateNode, List.append_eq]
    rw [if_neg (h q (by simp))]
    rw [ih (fun r hr => h r (List.mem_cons_of_mem _ hr))]

theorem removeNode_append_first {V : Type} {l1 : List (Nat × ElemVal V)} {id : Nat}
    (ev : ElemVal V) (l2 : List (Nat × ElemVal V)) (h : ∀ q ∈ l1, q.1 ≠ id) :
    removeNode (l1 ++ (id, ev) :: l2) id = l1 ++ l2 := by
  induction l1 with
  | nil => simp [removeNode]
  | cons q rest ih =>
    simp only [List.cons_append, removeNode, List.append_eq]
    rw [if_neg (h q (by simp))]
    rw [ih (fun r hr => h r (List.mem_cons_of_mem _ hr))]

theorem removeKey_append_first {l1 : List (String × Nat)} {k : String}
    (x : Nat) (l2 : List (String × Nat)) (h : ∀ q ∈ l1, q.1 ≠ k) :
    removeKey (l1 ++ (k, x) :: l2) k = l1 ++ l2 := by
  induction l1 with
  | nil => simp [removeKey]
  | cons q rest ih =>
    simp only [List.cons_append, removeKey, List.append_eq]
    rw [if_neg (h q (by simp))]
    rw [ih (fun r hr => h r (List.mem_cons_of_mem _ hr))]

theorem listNext_append_first {V : Type} {l1 : List (Nat × ElemVal V)} {id : Nat}
    (ev : ElemVal V) (l2 : List (Nat × ElemVal V)) (h : ∀ q ∈ l1, q.1 ≠ id) :
    listNext (l1 ++ (id, ev) :: l2) id = l2.head? := by
  induction l1 with
  | nil => simp [listNext]
  | cons q rest ih =>
    simp only [List.cons_append, listNext]
    rw [if_neg (h q (by simp))]
    exact ih (fun r hr => h r (List.mem_cons_of_mem _ hr))

theorem nodup_mid {α β : Type} {f : α → β} {l1 l2 : List α} {a : α}
    (h : ((l1 ++ a :: l2).map f).Nodup) :
    (∀ q ∈ l1, f q ≠ f a) ∧ ∀ q ∈ l2, f q ≠ f a := by
  rw [List.map_append, List.map_cons, List.nodup_append] at h
  obtain ⟨h1, h2, h3⟩ := h
  constructor
  · intro q hq heq
    exact h3 (List.mem_map_of_mem f hq) (by simp [heq])
  · intro q hq heq
    rw [List.nodup_cons] at h2
    exact h2.1 (heq ▸ List.mem_map_of_mem f hq)

/-! ### The traversal visits exactly the suffix it starts at -/

theorem traverseAux_suffix {V : Type} (m : OrderedMap V)
    (hnd : (m.lister.map Prod.fst).Nodup) :
    ∀ (l2 l1 : List (Nat × ElemVal V)) (fuel : Nat), m.lister = l1 ++ l2 →
      l2.length ≤ fuel →
      traverseAux m fuel (l2.head?.map stepElem) = l2.map (fun p => (p.2.key, p.2.value)) := by
  intro l2
  induction l2 with
  | nil => intro l1 fuel hsplit hfuel; simp [traverseAux]
  | cons p l2 ih =>
    intro l1 fuel hsplit hfuel
    cases fuel with
    | zero => simp at hfuel
    | succ f =>
      simp only [List.head?_cons, Option.map_some, traverseAux, List.map_cons]
      have hnext : (stepElem p).Next m = l2.head?.map stepElem := by
        have hfst : ∀ q ∈ l1, q.1 ≠ p.1 := by
          have := @nodup_mid _ _ Prod.fst l1 l2 p (by rw [← hsplit]; exact hnd)
          exact this.1
        rw [Element.Next, stepElem, hsplit]
        have hln : listNext (l1 ++ p :: l2) p.1 = l2.head? := by
          have := @listNext_append_first _ l1 p.1 p.2 l2 hfst
          simpa using this
        rw [hln]
      rw [hnext, stepElem]
      exact congrArg _ (ih (l1 ++ [p]) f (by simpa using hsplit) (Nat.le_of_succ_le_succ hfuel))

theorem iterate_eq_lister {V : Type} (m : OrderedMap V)
    (hnd : (m.lister.map Prod.fst).Nodup) :
    m.iterate = m.lister.map (fun p => (p.2.key, p.2.value)) := by
  have := traverseAux_suffix m hnd m.lister [] m.Len rfl (by rfl)
  simpa [OrderedMap.iterate, traverseFrom, OrderedMap.First] using this

/-! ### Well-formedness: established by `New`, preserved by `Set` and `Delete` -/

theorem wf_new (V : Type) : (OrderedMap.New V).WF := by
  simp [OrderedMap.WF, OrderedMap.New]

theorem lookupKey_none_iff {V : Type} (m : OrderedMap V) (hwf : m.WF) (k : String) :
    lookupKey m.mapper k = none ↔ k ∉ m.listKeys := by
  rw [hwf.1]
  exact lookupKey_proj_none_iff _ _

theorem lookupKey_some_decomp {V : Type} (m : OrderedMap V) (hwf : m.WF) {k : String}
    {id : Nat} (h : lookupKey m.mapper k = some id) :
    ∃ l1 ev l2, m.lister = l1 ++ (id, ev) :: l2 ∧ ev.key = k
      ∧ (∀ q ∈ l1, q.2.key ≠ k) ∧ (∀ q ∈ l2, q.2.key ≠ k)
      ∧ (∀ q ∈ l1, q.1 ≠ id) ∧ (∀ q ∈ l2, q.1 ≠ id) := by
  obtain ⟨hsync, hids, hkeys, _⟩ := hwf
  rw [hsync] at h
  obtain ⟨l1, ev, l2, hl, hkey, hfirst⟩ := lookupKey_proj_some h
  have hkm := @nodup_mid _ _ (fun p : Nat × ElemVal V => p.2.key) l1 l2 (id, ev) (hl ▸ hkeys)
  have him := @nodup_mid _ _ Prod.fst l1 l2 (id, ev) (hl ▸ hids)
  exact ⟨l1, ev, l2, hl, hkey, hfirst, fun q hq => hkey ▸ hkm.2 q hq, him.1, him.2⟩

theorem wf_set {V : Type} (m : OrderedMap V) (hwf : m.WF) (k : String) (v : V) :
    (m.Set k v).WF := by
  cases hlk : lookupKey m.mapper k with
  | none =>
    have hkabs : k ∉ m.lister.map (fun p => p.2.key) := by
      rw [hwf.1] at hlk
      exact (lookupKey_proj_none_iff _ _).mp hlk
    obtain ⟨hsync, hids, hkeys, hlt⟩ := hwf
    simp only [OrderedMap.Set, hlk, OrderedMap.WF]
    refine ⟨by simp [hsync], ?_, ?_, ?_⟩
    · rw [List.map_append]
      refine List.Nodup.append hids (by simp) ?_
      intro x hx1 hx2
      obtain ⟨p, hp, rfl⟩ := List.mem_map.mp hx1
      simp only [List.map_cons, List.map_nil, List.mem_singleton] at hx2
      exact absurd hx2 (Nat.ne_of_lt (hlt p hp))
    · rw [List.map_append]
      refine List.Nodup.append hkeys (by simp) ?_
      intro x hx1 hx2
      simp only [List.map_cons, List.map_nil, List.mem_singleton] at hx2
      exact hkabs (hx2 ▸ hx1)
    · intro p hp
      rcases List.mem_append.mp hp with hp | hp
      · exact Nat.lt_succ_of_lt (hlt p hp)
      · simp only [List.mem_singleton] at hp
        simp [hp]
  | some id =>
    obtain ⟨hsync, hids, hkeys, hlt⟩ := hwf
    simp only [OrderedMap.Set, hlk, OrderedMap.WF]
    refine ⟨by rw [updateNode_map_proj, hsync], by rw [updateNode_map_fst]; exact hids,
      by rw [updateNode_map_key]; exact hkeys, ?_⟩
    intro p hp
    have : p.1 ∈ (updateNode m.lister id v).map Prod.fst := List.mem_map_of_mem _ hp
    rw [updateNode_map_fst] at this
    obtain ⟨q, hq, hqe⟩ := List.mem_map.mp this
    exact hqe ▸ hlt q hq

theorem wf_delete {V : Type} (m : OrderedMap V) (hwf : m.WF) (k : String) :
    (m.Delete k).WF := by
  cases hlk : lookupKey m.mapper k with
  | none => simpa [OrderedMap.Delete, hlk] using hwf
  | some id =>
    obtain ⟨l1, ev, l2, hl, hkey, hk1, hk2, hi1, hi2⟩ := lookupKey_some_decomp m hwf hlk
    obtain ⟨hsync, hids, hkeys, hlt⟩ := hwf
    simp only [OrderedMap.Delete, hlk, OrderedMap.WF]
    have hrem : removeNode m.lister id = l1 ++ l2 := by
      rw [hl]; exact removeNode_append_first ev l2 hi1
    have hremk : removeKey m.mapper k = (l1 ++ l2).map (fun p => (p.2.key, p.1)) := by
      rw [hsync, hl, List.map_append, List.map_cons]
      have hmid : ((id, ev).2.key, (id, ev).1) = (k, id) := by simp [hkey]
      rw [hmid, removeKey_append_first id _ ?_, List.map_append]
      intro q hq
      obtain ⟨r, hr, rfl⟩ := List.mem_map.mp hq
      exact hk1 r hr
    have hsub : ((l1 ++ l2).map Prod.fst).Sublist ((l1 ++ (id, ev) :: l2).map Prod.fst) := by
      simp only [List.map_append, List.map_cons]
      exact List.Sublist.append_left (List.sublist_cons_self _ _) _
    have hsubk : ((l1 ++ l2).map (fun p => p.2.key)).Sublist
        ((l1 ++ (id, ev) :: l2).map (fun p => p.2.key)) := by
      simp only [List.map_append, List.map_cons]
      exact List.Sublist.append_left (List.sublist_cons_self _ _) _
    refine ⟨by rw [hremk, hrem], by rw [hrem]; exact (hl ▸ hids).sublist hsub,
      by rw [hrem]; exact (hl ▸ hkeys).sublist hsubk, ?_⟩
    intro p hp
    rw [hrem] at hp
    apply hlt
    rw [hl]
    rcases List.mem_append.mp hp with hp | hp
    · exact List.mem_append.mpr (Or.inl hp)
    · exact List.mem_append.mpr (Or.inr (List.mem_cons_of_mem _ hp))

theorem wf_applyOps {V : Type} (m : OrderedMap V) (hwf : m.WF) (ops : List (Op V)) :
    (applyOps m ops).WF := by
  induction ops generalizing m with
  | nil => exact hwf
  | cons op rest ih =>
    cases op with
    | set k v => exact ih _ (wf_set m hwf k v)
    | del k => exact ih _ (wf_delete m hwf k)

/-! ### Behavior of the operations on well-formed maps -/

theorem set_absent_state {V : Type} (m : OrderedMap V) (hwf : m.WF) (k : String) (v : V)
    (habs : k ∉ m.listKeys) :
    m.Set k v = { mapper := m.mapper ++ [(k, m.nextId)]
                  lister := m.lister ++ [(m.nextId, ⟨k, v⟩)]
                  nextId := m.nextId + 1 } := by
  have hlk : lookupKey m.mapper k = none := (lookupKey_none_iff m hwf k).mpr habs
  simp [OrderedMap.Set, hlk]

theorem set_present_state {V : Type} (m : OrderedMap V) (hwf : m.WF) (k : String) (v : V)
    (hpres : k ∈ m.listKeys) :
    ∃ id, lookupKey m.mapper k = some id
      ∧ m.Set k v = { m with lister := updateNode m.lister id v } := by
  cases hlk : lookupKey m.mapper k with
  | none => exact absurd ((lookupKey_none_iff m hwf k).mp hlk) (not_not_intro hpres)
  | some id => exact ⟨id, rfl, by simp [OrderedMap.Set, hlk]⟩

theorem set_present_keys_len {V : Type} (m : OrderedMap V) (hwf : m.WF) (k : String) (v : V)
    (hpres : k ∈ m.listKeys) :
    (m.Set k v).listKeys = m.listKeys ∧ (m.Set k v).Len = m.Len := by
  obtain ⟨id, _, hstate⟩ := set_present_state m hwf k v hpres
  rw [hstate]
  exact ⟨by simp [OrderedMap.listKeys, updateNode_map_key],
    by simp [OrderedMap.Len, updateNode_length]⟩

theorem get_absent {V : Type} (m : OrderedMap V) (hwf : m.WF) (k : String)
    (habs : k ∉ m.listKeys) : m.Get k = none := by
  simp [OrderedMap.Get, (lookupKey_none_iff m hwf k).mpr habs]

theorem get_of_node {V : Type} (m : OrderedMap V) (hwf : m.WF) {p : Nat × ElemVal V}
    (hp : p ∈ m.lister) : m.Get p.2.key = some p.2.value := by
  cases hlk : lookupKey m.mapper p.2.key with
  | none =>
    have : p.2.key ∉ m.listKeys := (lookupKey_none_iff m hwf _).mp hlk
    exact absurd (List.mem_map_of_mem _ hp) this
  | some id =>
    obtain ⟨l1, ev, l2, hl, hkey, hk1, hk2, hi1, hi2⟩ := lookupKey_some_decomp m hwf hlk
    have hpev : p = (id, ev) := by
      rw [hl] at hp
      rcases List.mem_append.mp hp with hp1 | hp1
      · exact absurd rfl (hk1 p hp1)
      · rcases List.mem_cons.mp hp1 with h | hp2
        · exact h
        · exact absurd rfl (hk2 p hp2)
    simp only [OrderedMap.Get, hlk, hl]
    rw [findNode_append_first ev l2 hi1]
    simp [hpev]

theorem get_present {V : Type} (m : OrderedMap V) (hwf : m.WF) (k : String)
    (hpres : k ∈ m.listKeys) : ∃ v, m.Get k = some v := by
  obtain ⟨p, hp, hkp⟩ := List.mem_map.mp hpres
  exact ⟨p.2.value, hkp ▸ get_of_node m hwf hp⟩

theorem get_set_present {V : Type} (m : OrderedMap V) (hwf : m.WF) (k : String) (v : V)
    (hpres : k ∈ m.listKeys) : (m.Set k v).Get k = some v := by
  obtain ⟨id, hlk, hstate⟩ := set_present_state m hwf k v hpres
  obtain ⟨l1, ev, l2, hl, hkey, hk1, hk2, hi1, hi2⟩ := lookupKey_some_decomp m hwf hlk
  rw [hstate]
  simp only [OrderedMap.Get, hlk]
  rw [hl, updateNode_append_first ev l2 v hi1, findNode_append_first _ l2 hi1]
  simp

theorem delete_absent_state {V : Type} (m : OrderedMap V) (hwf : m.WF) (k : String)
    (habs : k ∉ m.listKeys) : m.Delete k = m := by
  have hlk : lookupKey m.mapper k = none := (lookupKey_none_iff m hwf k).mpr habs
  simp [OrderedMap.Delete, hlk]

theorem delete_present_state {V : Type} (m : OrderedMap V) (hwf : m.WF) (k : String)
    (hpres : k ∈ m.listKeys) :
    ∃ l1 id ev l2, m.lister = l1 ++ (id, ev) :: l2 ∧ ev.key = k
      ∧ (∀ q ∈ l1, q.2.key ≠ k) ∧ (∀ q ∈ l2, q.2.key ≠ k)
      ∧ (m.Delete k).lister = l1 ++ l2 := by
  cases hlk : lookupKey m.mapper k with
  | none => exact absurd ((lookupKey_none_iff m hwf k).mp hlk) (not_not_intro hpres)
  | some id =>
    obtain ⟨l1, ev, l2, hl, hkey, hk1, hk2, hi1, hi2⟩ := lookupKey_some_decomp m hwf hlk
    refine ⟨l1, id, ev, l2, hl, hkey, hk1, hk2, ?_⟩
    simp only [OrderedMap.Delete, hlk]
    rw [hl]
    exact removeNode_append_first ev l2 hi1

/-! ### Folding `Set` over lists of key-value pairs -/

theorem setAll_cons {V : Type} (m : OrderedMap V) (kv : String × V) (rest : List (String × V)) :
    setAll m (kv :: rest) = setAll (m.Set kv.1 kv.2) rest := by
  simp [setAll]

theorem setAll_fresh {V : Type} :
    ∀ (kvs : List (String × V)) (m : OrderedMap V), m.WF →
      (kvs.map Prod.fst).Nodup → (∀ kv ∈ kvs, kv.1 ∉ m.listKeys) →
      (setAll m kvs).WF ∧ (setAll m kvs).listKeys = m.listKeys ++ kvs.map Prod.fst := by
  intro kvs
  induction kvs with
  | nil => intro m hwf _ _; exact ⟨hwf, by simp [setAll]⟩
  | cons kv rest ih =>
    intro m hwf hnd hfresh
    have habs : kv.1 ∉ m.listKeys := hfresh kv (by simp)
    have hkeys1 : (m.Set kv.1 kv.2).listKeys = m.listKeys ++ [kv.1] := by
      rw [set_absent_state m hwf kv.1 kv.2 habs]
      simp [OrderedMap.listKeys]
    rw [List.map_cons, List.nodup_cons] at hnd
    have hfresh2 : ∀ r ∈ rest, r.1 ∉ (m.Set kv.1 kv.2).listKeys := by
      intro r hr
      rw [hkeys1, List.mem_append, not_or]
      refine ⟨hfresh r (List.mem_cons_of_mem _ hr), ?_⟩
      simp only [List.mem_singleton]
      intro he
      exact hnd.1 (he ▸ List.mem_map_of_mem Prod.fst hr)
    obtain ⟨hwfA, hkeysA⟩ := ih (m.Set kv.1 kv.2) (wf_set m hwf kv.1 kv.2) hnd.2 hfresh2
    rw [setAll_cons]
    exact ⟨hwfA, by rw [hkeysA, hkeys1, List.map_cons]; simp⟩

theorem setAll_present {V : Type} :
    ∀ (upds : List (String × V)) (m : OrderedMap V), m.WF →
      (∀ kv ∈ upds, kv.1 ∈ m.listKeys) →
      (setAll m upds).WF ∧ (setAll m upds).listKeys = m.listKeys := by
  intro upds
  induction upds with
  | nil => intro m hwf _; exact ⟨hwf, by simp [setAll]⟩
  | cons kv rest ih =>
    intro m hwf hpres
    have hkv : kv.1 ∈ m.listKeys := hpres kv (by simp)
    have hkeys1 := (set_present_keys_len m hwf kv.1 kv.2 hkv).1
    have hpres2 : ∀ r ∈ rest, r.1 ∈ (m.Set kv.1 kv.2).listKeys := by
      intro r hr
      rw [hkeys1]
      exact hpres r (List.mem_cons_of_mem _ hr)
    obtain ⟨hwfA, hkeysA⟩ := ih (m.Set kv.1 kv.2) (wf_set m hwf kv.1 kv.2) hpres2
    rw [setAll_cons]
    exact ⟨hwfA, by rw [hkeysA, hkeys1]⟩

/-! ### Elements yielded by `First` and `Next` are snapshots of live nodes -/

theorem listNext_mem {V : Type} : ∀ (l : List (Nat × ElemVal V)) (id : Nat)
    (p : Nat × ElemVal V), listNext l id = some p → p ∈ l := by
  intro l
  induction l with
  | nil => intro id p h; simp [listNext] at h
  | cons a rest ih =>
    intro id p h
    simp only [listNext] at h
    split at h
    · exact List.mem_cons_of_mem _ (List.mem_of_mem_head? h)
    · exact List.mem_cons_of_mem _ (ih id p h)

theorem first_mem {V : Type} (m : OrderedMap V) {e : Element V} (h : m.First = some e) :
    (e.elem, (⟨e.key, e.value⟩ : ElemVal V)) ∈ m.lister := by
  simp only [OrderedMap.First, Option.map_eq_some'] at h
  obtain ⟨p, hp, rfl⟩ := h
  exact List.mem_of_mem_head? hp

theorem next_mem {V : Type} (m : OrderedMap V) {e0 e : Element V} (h : e0.Next m = some e) :
    (e.elem, (⟨e.key, e.value⟩ : ElemVal V)) ∈ m.lister := by
  simp only [Element.Next, Option.map_eq_some'] at h
  obtain ⟨p, hp, rfl⟩ := h
  exact listNext_mem m.lister e0.elem p hp

theorem lookupKey_proj_first {V : Type} {l1 : List (Nat × ElemVal V)} {k : String}
    {id : Nat} {ev : ElemVal V} (h : ∀ q ∈ l1, q.2.key ≠ k) (hkey : ev.key = k)
    (l2 : List (Nat × ElemVal V)) :
    lookupKey ((l1 ++ (id, ev) :: l2).map (fun p => (p.2.key, p.1))) k = some id := by
  induction l1 with
  | nil => simp [lookupKey, hkey]
  | cons q rest ih =>
    simp only [List.cons_append, List.map_cons, lookupKey]
    rw [if_neg (h q (by simp))]
    exact ih (fun r hr => h r (List.mem_cons_of_mem _ hr))

theorem iterate_map_fst {V : Type} (m : OrderedMap V)
    (hnd : (m.lister.map Prod.fst).Nodup) :
    m.iterate.map Prod.fst = m.listKeys := by
  rw [iterate_eq_lister m hnd, List.map_map]
  rfl

theorem first_none_iff_len {V : Type} (m : OrderedMap V) :
    m.First = none ↔ m.Len = 0 := by
  cases h : m.lister <;> simp [OrderedMap.First, OrderedMap.Len, h]

theorem next_none_iff_last {V : Type} (m : OrderedMap V)
    (hnd : (m.lister.map Prod.fst).Nodup) (e : Element V)
    (hmem : e.elem ∈ m.lister.map Prod.fst) :
    e.Next m = none ↔ ∃ l1 p, m.lister = l1 ++ [p] ∧ p.1 = e.elem := by
  obtain ⟨q, hq, hqe⟩ := List.mem_map.mp hmem
  obtain ⟨s, t, hst⟩ := List.append_of_mem hq
  have hs : ∀ r ∈ s, r.1 ≠ q.1 :=
    (@nodup_mid _ _ Prod.fst s t q (hst ▸ hnd)).1
  have hln : listNext m.lister e.elem = t.head? := by
    rw [hst, ← hqe]
    have := @listNext_append_first _ s q.1 q.2 t hs
    simpa using this
  constructor
  · intro h
    simp only [Element.Next, hln] at h
    have ht : t = [] := by
      cases ht : t with
      | nil => rfl
      | cons x xs => rw [ht] at h; simp at h
    exact ⟨s, q, by rw [hst, ht], hqe⟩
  · rintro ⟨l1, p, hl, hpe⟩
    have hl1 : ∀ r ∈ l1, r.1 ≠ p.1 :=
      (@nodup_mid _ _ Prod.fst l1 [] p (hl ▸ hnd)).1
    have hlast : listNext m.lister p.1 = ([] : List (Nat × ElemVal V)).head? := by
      rw [hl]
      have := @listNext_append_first _ l1 p.1 p.2 [] hl1
      simpa using this
    simp only [Element.Next, ← hpe, hlast]
    rfl

/-! ### Claim theorems -/

/-- C1: for every sequence of distinct keys inserted via `Set` into a map
created by `New`, forward iteration via `First` and repeated `Next` yields
exactly those keys in first-insertion order, regardless of later `Set` calls
that only update values of existing keys; and a `Set` with an absent key
appends its entry at the tail of the sequence. -/
theorem C1_insertion_order (V : Type) (kvs upds : List (String × V))
    (hnd : (kvs.map Prod.fst).Nodup)
    (hupd : ∀ kv ∈ upds, kv.1 ∈ kvs.map Prod.fst) :
    ((setAll (setAll (OrderedMap.New V) kvs) upds).iterate.map Prod.fst = kvs.map Prod.fst)
      ∧ ∀ (m : OrderedMap V) (k : String) (v : V), m.WF → k ∉ m.listKeys →
          (m.Set k v).iterate = m.iterate ++ [(k, v)] := by
  constructor
  · obtain ⟨hwf1, hkeys1⟩ := setAll_fresh kvs (OrderedMap.New V) (wf_new V) hnd
      (by simp [OrderedMap.New, OrderedMap.listKeys])
    have hkeys1A : (setAll (OrderedMap.New V) kvs).listKeys = kvs.map Prod.fst := by
      simpa [OrderedMap.New, OrderedMap.listKeys] using hkeys1
    obtain ⟨hwf2, hkeys2⟩ := setAll_present upds (setAll (OrderedMap.New V) kvs) hwf1
      (by rw [hkeys1A]; exact hupd)
    rw [iterate_map_fst _ hwf2.2.1, hkeys2, hkeys1A]
  · intro m k v hwf habs
    have hstate := set_absent_state m hwf k v habs
    have hwf2 := wf_set m hwf k v
    rw [hstate] at hwf2 ⊢
    rw [iterate_eq_lister _ hwf2.2.1, iterate_eq_lister m hwf.2.1]
    simp

/-- C2: for every sequence of `Set` and `Delete` operations applied to a map
created by `New`, `Len` equals the number of distinct keys currently present,
and the index and the ordered sequence stay in sync: the index holds exactly
the `(key, node)` pairs of the sequence, with no duplicate keys or nodes. -/
theorem C2_len_and_sync (V : Type) (ops : List (Op V)) :
    (applyOps (OrderedMap.New V) ops).Len = (applyOps (OrderedMap.New V) ops).listKeys.length
      ∧ (applyOps (OrderedMap.New V) ops).listKeys.Nodup
      ∧ (∀ k, ((applyOps (OrderedMap.New V) ops).Get k).isSome
            ↔ k ∈ (applyOps (OrderedMap.New V) ops).listKeys)
      ∧ (applyOps (OrderedMap.New V) ops).mapper
          = (applyOps (OrderedMap.New V) ops).lister.map (fun p => (p.2.key, p.1))
      ∧ ((applyOps (OrderedMap.New V) ops).lister.map Prod.fst).Nodup := by
  have hwf : (applyOps (OrderedMap.New V) ops).WF := wf_applyOps _ (wf_new V) ops
  refine ⟨by simp [OrderedMap.Len, OrderedMap.listKeys], hwf.2.2.1, ?_, hwf.1, hwf.2.1⟩
  intro k
  constructor
  · intro hsome
    by_contra habs
    rw [get_absent _ hwf k habs] at hsome
    simp at hsome
  · intro hpres
    obtain ⟨v, hv⟩ := get_present _ hwf k hpres
    simp [hv]

/-- C3: for every map and every key already present, `Set(k, v2)` mutates only
the stored value: a subsequent `Get k` returns `v2`, `Len` is unchanged, and
the key sequence of a full iteration is unchanged. -/
theorem C3_set_existing (V : Type) (m : OrderedMap V) (k : String) (v1 v2 : V)
    (hwf : m.WF) (hget : m.Get k = some v1) :
    (m.Set k v2).Get k = some v2
      ∧ (m.Set k v2).Len = m.Len
      ∧ (m.Set k v2).iterate.map Prod.fst = m.iterate.map Prod.fst := by
  have hpres : k ∈ m.listKeys := by
    by_contra habs
    rw [get_absent m hwf k habs] at hget
    exact Option.noConfusion hget
  obtain ⟨hkeys, hlen⟩ := set_present_keys_len m hwf k v2 hpres
  have hwf2 := wf_set m hwf k v2
  refine ⟨get_set_present m hwf k v2 hpres, hlen, ?_⟩
  rw [iterate_map_fst _ hwf2.2.1, iterate_map_fst _ hwf.2.1, hkeys]

/-- C4: if the cursor for the next step was captured via `Next` before
deleting the current entry's key, continuing from that captured cursor still
visits all remaining entries in order. -/
theorem C4_capture_next_before_delete (V : Type) (m : OrderedMap V) (hwf : m.WF)
    (pre post : List (Nat × ElemVal V)) (pa : Nat × ElemVal V)
    (hsplit : m.lister = pre ++ pa :: post) (e : Element V) (he : e.elem = pa.1) :
    traverseFrom (m.Delete pa.2.key) (e.Next m) =
      post.map (fun p => (p.2.key, p.2.value)) := by
  have hids := hwf.2.1
  have hkeys := hwf.2.2.1
  have hpre_ids : ∀ q ∈ pre, q.1 ≠ pa.1 :=
    (@nodup_mid _ _ Prod.fst pre post pa (hsplit ▸ hids)).1
  have hpre_keys : ∀ q ∈ pre, q.2.key ≠ pa.2.key :=
    (@nodup_mid _ _ (fun p : Nat × ElemVal V => p.2.key) pre post pa (hsplit ▸ hkeys)).1
  have hnext : e.Next m = post.head?.map stepElem := by
    simp only [Element.Next, he, hsplit]
    have hln := @listNext_append_first _ pre pa.1 pa.2 post hpre_ids
    have hpa : ((pa.1, pa.2) : Nat × ElemVal V) = pa := rfl
    rw [hpa] at hln
    rw [hln]
  have hlk : lookupKey m.mapper pa.2.key = some pa.1 := by
    rw [hwf.1, hsplit]
    have := @lookupKey_proj_first _ pre _ pa.1 pa.2 hpre_keys rfl post
    simpa using this
  have hdel_lister : (m.Delete pa.2.key).lister = pre ++ post := by
    simp only [OrderedMap.Delete, hlk]
    rw [hsplit]
    have hrm := @removeNode_append_first _ pre pa.1 pa.2 post hpre_ids
    have hpa : ((pa.1, pa.2) : Nat × ElemVal V) = pa := rfl
    rw [hpa] at hrm
    exact hrm
  have hwfd := wf_delete m hwf pa.2.key
  rw [hnext]
  exact traverseAux_suffix (m.Delete pa.2.key) hwfd.2.1 post pre (m.Delete pa.2.key).Len
    (by rw [hdel_lister]) (by rw [OrderedMap.Len, hdel_lister]; simp)

/-- C5: `Delete` of a present key removes exactly that entry from both the
index and the sequence, leaving the relative order of all other entries
unchanged, and decrements `Len` by one. -/
theorem C5_delete_present (V : Type) (m : OrderedMap V) (k : String) (hwf : m.WF)
    (hpres : k ∈ m.listKeys) :
    (m.Delete k).iterate = m.iterate.filter (fun p => p.1 != k)
      ∧ (m.Delete k).Len + 1 = m.Len
      ∧ (m.Delete k).mapper = m.mapper.filter (fun q => q.1 != k) := by
  obtain ⟨l1, id, ev, l2, hl, hkey, hk1, hk2, hdel⟩ := delete_present_state m hwf k hpres
  have hwfd := wf_delete m hwf k
  have hfl1 : (l1.map (fun p => (p.2.key, p.2.value))).filter (fun p => p.1 != k)
      = l1.map (fun p => (p.2.key, p.2.value)) := by
    rw [List.filter_eq_self]
    intro a ha
    obtain ⟨q, hq, rfl⟩ := List.mem_map.mp ha
    simpa using hk1 q hq
  have hfl2 : (l2.map (fun p => (p.2.key, p.2.value))).filter (fun p => p.1 != k)
      = l2.map (fun p => (p.2.key, p.2.value)) := by
    rw [List.filter_eq_self]
    intro a ha
    obtain ⟨q, hq, rfl⟩ := List.mem_map.mp ha
    simpa using hk2 q hq
  have hflm1 : (l1.map (fun p => (p.2.key, p.1))).filter (fun q => q.1 != k)
      = l1.map (fun p => (p.2.key, p.1)) := by
    rw [List.filter_eq_self]
    intro a ha
    obtain ⟨q, hq, rfl⟩ := List.mem_map.mp ha
    simpa using hk1 q hq
  have hflm2 : (l2.map (fun p => (p.2.key, p.1))).filter (fun q => q.1 != k)
      = l2.map (fun p => (p.2.key, p.1)) := by
    rw [List.filter_eq_self]
    intro a ha
    obtain ⟨q, hq, rfl⟩ := List.mem_map.mp ha
    simpa using hk2 q hq
  refine ⟨?_, ?_, ?_⟩
  · rw [iterate_eq_lister _ hwfd.2.1, iterate_eq_lister m hwf.2.1, hdel, hl]
    rw [List.map_append, List.map_append, List.map_cons, List.filter_append, List.filter_cons]
    have hmid : ((((id, ev).2.key, (id, ev).2.value)).1 != k) = false := by simp [hkey]
    rw [hmid, hfl1, hfl2]
    simp
  · rw [OrderedMap.Len, OrderedMap.Len, hdel, hl]
    simp
    omega
  · rw [hwfd.1, hdel, hwf.1, hl]
    rw [List.map_append, List.map_append, List.map_cons, List.filter_append, List.filter_cons]
    have hmid : ((((id, ev).2.key, (id, ev).1)).1 != k) = false := by simp [hkey]
    rw [hmid, hflm1, hflm2]
    simp

/-- C6: for every well-formed map and every key not currently present (never
inserted, or deleted), `Get` returns the Go pair `(nil, false)` — rendered
`none` — as a normal negative result of the total function `Get`, never a
failure signal. -/
theorem C6_get_absent (V : Type) (m : OrderedMap V) (k : String) (hwf : m.WF)
    (habs : k ∉ m.listKeys) : m.Get k = none :=
  get_absent m hwf k habs

/-- C7: for every well-formed map and every absent key, `Delete` is a no-op:
the entire state is unchanged, hence `Len`, `Get` and iteration behave
identically before and after the call. -/
theorem C7_delete_absent (V : Type) (m : OrderedMap V) (k : String) (hwf : m.WF)
    (habs : k ∉ m.listKeys) :
    m.Delete k = m ∧ (m.Delete k).Len = m.Len
      ∧ (∀ k2, (m.Delete k).Get k2 = m.Get k2)
      ∧ (m.Delete k).iterate = m.iterate := by
  have h := delete_absent_state m hwf k habs
  exact ⟨h, by rw [h], fun k2 => by rw [h], by rw [h]⟩

/-- C9: every `Element` yielded by `First` or `Next` carries a copy of the
entry's key and value taken at the moment it was produced: its recorded value
is the map's value at capture time; a later `Set(k, v2)` makes the map return
`v2` while the captured element is a separate value that still records the
old pair; and assigning to the element's `Value` field (`setValue`) produces
an element touching only that copy — the map `m` is not part of the result,
so `Get` against `m` is unaffected. -/
theorem C9_element_snapshot (V : Type) (m : OrderedMap V) (e : Element V) (hwf : m.WF)
    (he : m.First = some e ∨ ∃ e0 : Element V, e0.Next m = some e) (v2 : V) :
    m.Get e.key = some e.value
      ∧ (m.Set e.key v2).Get e.key = some v2
      ∧ ∀ w : V, (e.setValue w).value = w ∧ (e.setValue w).key = e.key
          ∧ (e.setValue w).elem = e.elem ∧ m.Get e.key = some e.value := by
  have hmem : (e.elem, (⟨e.key, e.value⟩ : ElemVal V)) ∈ m.lister := by
    rcases he with h | ⟨e0, h⟩
    · exact first_mem m h
    · exact next_mem m h
  have hget : m.Get e.key = some e.value := get_of_node m hwf hmem
  have hpres : e.key ∈ m.listKeys := by
    have := List.mem_map_of_mem (fun p => p.2.key) hmem
    simpa [OrderedMap.listKeys] using this
  exact ⟨hget, get_set_present m hwf e.key v2 hpres,
    fun w => ⟨rfl, rfl, rfl, hget⟩⟩

/-- C10: `First` returns `nil` exactly when the map is empty (`Len = 0`);
`Next` returns `nil` exactly when the current element's node is the last
entry of the sequence; and a fresh traversal from `First` yields exactly
`Len` elements. -/
theorem C10_traversal_bounds (V : Type) (m : OrderedMap V) (hwf : m.WF) :
    (m.First = none ↔ m.Len = 0)
      ∧ m.iterate.length = m.Len
      ∧ ∀ e : Element V, e.elem ∈ m.lister.map Prod.fst →
          (e.Next m = none ↔ ∃ l1 p, m.lister = l1 ++ [p] ∧ p.1 = e.elem) := by
  refine ⟨first_none_iff_len m, ?_, fun e hmem => next_none_iff_last m hwf.2.1 e hmem⟩
  rw [iterate_eq_lister m hwf.2.1, List.length_map]
  rfl

/-! ### Concrete witnesses -/

/-- The running example of the spec: keys "a","b","c" inserted in order with
values 1,2,3. -/
def abcN : OrderedMap Nat :=
  setAll (OrderedMap.New Nat) [("a", 1), ("b", 2), ("c", 3)]

/-- Witness for C1 at the "a","b","c" example with a later value update. -/
theorem C1_witness :
    ((setAll (setAll (OrderedMap.New Nat) [("a", 1), ("b", 2), ("c", 3)])
        [("b", 9)]).iterate.map Prod.fst
      = ([("a", 1), ("b", 2), ("c", 3)] : List (String × Nat)).map Prod.fst)
      ∧ ∀ (m : OrderedMap Nat) (k : String) (v : Nat), m.WF → k ∉ m.listKeys →
          (m.Set k v).iterate = m.iterate ++ [(k, v)] :=
  C1_insertion_order Nat [("a", 1), ("b", 2), ("c", 3)] [("b", 9)]
    (by decide) (by decide)

/-- Witness for C3: updating "b" to 9 on the example map. -/
theorem C3_witness :
    (abcN.Set "b" 9).Get "b" = some 9
      ∧ (abcN.Set "b" 9).Len = abcN.Len
      ∧ (abcN.Set "b" 9).iterate.map Prod.fst = abcN.iterate.map Prod.fst :=
  C3_set_existing Nat abcN "b" 2 9 (by decide) (by decide)

/-- Witness for C4: capture "b" as next while at "a", delete "a", and the
traversal still visits "b" and "c". -/
theorem C4_witness :
    traverseFrom (abcN.Delete "a") ((⟨0, "a", 1⟩ : Element Nat).Next abcN)
      = [("b", 2), ("c", 3)] :=
  C4_capture_next_before_delete Nat abcN (by decide) []
    [(1, ⟨"b", 2⟩), (2, ⟨"c", 3⟩)] (0, ⟨"a", 1⟩) (by decide) ⟨0, "a", 1⟩ rfl

/-- Witness for C5: deleting "b" from the example map leaves ["a","c"] and
length 2. -/
theorem C5_witness :
    ((abcN.Delete "b").iterate = abcN.iterate.filter (fun p => p.1 != "b")
        ∧ (abcN.Delete "b").Len + 1 = abcN.Len
        ∧ (abcN.Delete "b").mapper = abcN.mapper.filter (fun q => q.1 != "b"))
      ∧ (abcN.Delete "b").iterate = [("a", 1), ("c", 3)]
      ∧ (abcN.Delete "b").Len = 2 :=
  ⟨C5_delete_present Nat abcN "b" (by decide) (by decide), by decide, by decide⟩

/-- Witness for C6: a key never inserted, and a deleted key. -/
theorem C6_witness :
    abcN.Get "zzz" = none ∧ (abcN.Delete "b").Get "b" = none :=
  ⟨C6_get_absent Nat abcN "zzz" (by decide) (by decide),
   C6_get_absent Nat (abcN.Delete "b") "b" (by decide) (by decide)⟩

/-- Witness for C7: deleting an absent key leaves the example map unchanged. -/
theorem C7_witness :
    abcN.Delete "zzz" = abcN ∧ (abcN.Delete "zzz").Len = abcN.Len
      ∧ (∀ k2, (abcN.Delete "zzz").Get k2 = abcN.Get k2)
      ∧ (abcN.Delete "zzz").iterate = abcN.iterate :=
  C7_delete_absent Nat abcN "zzz" (by decide) (by decide)

/-- Witness for C9: the element captured by `First` for "a". -/
theorem C9_witness :
    abcN.Get "a" = some 1
      ∧ (abcN.Set "a" 9).Get "a" = some 9
      ∧ ∀ w : Nat, ((⟨0, "a", 1⟩ : Element Nat).setValue w).value = w
          ∧ ((⟨0, "a", 1⟩ : Element Nat).setValue w).key = "a"
          ∧ ((⟨0, "a", 1⟩ : Element Nat).setValue w).elem = 0
          ∧ abcN.Get "a" = some 1 :=
  C9_element_snapshot Nat abcN ⟨0, "a", 1⟩ (by decide) (Or.inl (by decide)) 9

/-- Witness for C10 at the example map. -/
theorem C10_witness :
    (abcN.First = none ↔ abcN.Len = 0)
      ∧ abcN.iterate.length = abcN.Len
      ∧ ∀ e : Element Nat, e.elem ∈ abcN.lister.map Prod.fst →
          (e.Next abcN = none ↔ ∃ l1 p, abcN.lister = l1 ++ [p] ∧ p.1 = e.elem) :=
  C10_traversal_bounds Nat abcN (by decide)
